import Mathlib

/-
Verification of the SVG-to-trajectory pipeline of the UR3e drawing
application.  The Python sources are embedded shallowly: planar and robot
coordinates become exact rationals (ℚ), the command tuples ('move'|'line', x, y)
become a `Cmd` structure, and each pipeline stage (`parse_path_data`,
`detect_closed_paths`, `optimize_paths`, `scale_to_robot_coordinates`,
`scale_to_a4`, `generate_trajectory`, `approximate_arc`, the two
`save_trajectory` variants) is translated function by function from
`Onlab/svg_code.py` and `svg_code.py`.  Python's `ZeroDivisionError` is
modelled with `Option` (a `none` result marks the raise); `math.sqrt`
comparisons against a nonnegative tolerance are expressed with squared
distances, which is exact.
-/

namespace SvgRobot

/-- A planar point (SVG or robot XY coordinates). -/
abbrev Point := ℚ × ℚ

/-- Tag of a drawing command: the `'move'` / `'line'` strings of the Python
tuples. -/
inductive CTag
| move
| line
deriving DecidableEq

/-- A drawing command, the Python tuple `('move'|'line', x, y)`. -/
structure Cmd where
  tag : CTag
  x : ℚ
  y : ℚ
deriving DecidableEq

/-- Shorthand for a `('move', x, y)` tuple. -/
def mkMove (x y : ℚ) : Cmd := ⟨CTag.move, x, y⟩

/-- Shorthand for a `('line', x, y)` tuple. -/
def mkLine (x y : ℚ) : Cmd := ⟨CTag.line, x, y⟩

/-- The planar point of a command. -/
def ptOf (c : Cmd) : Point := (c.x, c.y)

/-- Squared Euclidean distance.  `SVGToTrajectoryConverter.distance` computes
`sqrt ((x2-x1)^2 + (y2-y1)^2)`; every comparison `distance < t` (resp. `≤ t`)
with `t ≥ 0` in the source is embedded as `distSq < t^2` (resp. `≤ t^2`),
which is equivalent and exact over ℚ. -/
def distSq (p q : Point) : ℚ := (q.1 - p.1) ^ 2 + (q.2 - p.2) ^ 2

/-
Path-data interpreter, from `Onlab/svg_code.py`, `parse_path_data`
(lines 494-745).  The embedding works at the token level: the Python code
first surrounds every command letter with spaces and splits on
whitespace/commas, producing a stream of command-letter tokens and numeric
tokens; `PTok` is that stream.  The claims under verification only exercise
the M/m, L/l and Z/z branches, so the letter alphabet is restricted to those
six letters; the H/V/C/S/Q/T/A branches touch neither `first_position` nor
`start_position` and are independent of the close-path logic.
-/

/-- A recognized command letter (absolute/relative move, line, close). -/
inductive PLetter
| Mabs
| mrel
| Labs
| lrel
| Zabs
| zrel
deriving DecidableEq

/-- A token of the normalized path-data string: a command letter or a numeric
operand. -/
inductive PTok
| letter (c : PLetter)
| num (q : ℚ)
deriving DecidableEq

/-- The update condition for `first_position` in the `Mm` branch
(line 531 of `Onlab/svg_code.py`):
`len(drawing_commands) == 0 or drawing_commands[-1][0] == 'move'`. -/
def lastIsMove (acc : List Cmd) : Bool :=
  match acc.getLast? with
  | some c =>
    match c.tag with
    | CTag.move => true
    | CTag.line => false
  | none => true

/-- The token-consuming while-loop of `parse_path_data`.  State:
remaining tokens, `current_cmd`, `abs_position`, `start_position`,
`first_position`, and the accumulated `drawing_commands`.  A command letter
only updates `current_cmd`; numeric tokens are dispatched on `current_cmd`.
In particular the `Zz` branch (lines 596-602) runs only when a numeric token
is read while `current_cmd` is `Z`/`z`, exactly as in the Python loop. -/
def parseLoop : List PTok → Option PLetter → Point → Point → Point → List Cmd → List Cmd
  | [], _, _, _, _, acc => acc
  | PTok.letter c :: rest, _, ap, sp, fp, acc => parseLoop rest (some c) ap sp fp acc
  | PTok.num q1 :: PTok.num q2 :: rest, some PLetter.Mabs, _, _, fp, acc =>
      let fp2 := if lastIsMove acc then (q1, q2) else fp
      parseLoop rest (some PLetter.Mabs) (q1, q2) (q1, q2) fp2 (acc ++ [mkMove q1 q2])
  | PTok.num q1 :: PTok.num q2 :: rest, some PLetter.mrel, ap, _, fp, acc =>
      let x := q1 + ap.1
      let y := q2 + ap.2
      let fp2 := if lastIsMove acc then (x, y) else fp
      parseLoop rest (some PLetter.mrel) (x, y) (x, y) fp2 (acc ++ [mkMove x y])
  | PTok.num q1 :: PTok.num q2 :: rest, some PLetter.Labs, _, sp, fp, acc =>
      parseLoop rest (some PLetter.Labs) (q1, q2) sp fp (acc ++ [mkLine q1 q2])
  | PTok.num q1 :: PTok.num q2 :: rest, some PLetter.lrel, ap, sp, fp, acc =>
      let x := q1 + ap.1
      let y := q2 + ap.2
      parseLoop rest (some PLetter.lrel) (x, y) sp fp (acc ++ [mkLine x y])
  | PTok.num _ :: rest, some PLetter.Zabs, ap, sp, fp, acc =>
      if ap ≠ fp ∧ acc ≠ [] then
        parseLoop rest (some PLetter.Zabs) fp sp fp (acc ++ [mkLine fp.1 fp.2])
      else
        parseLoop rest (some PLetter.Zabs) ap sp fp acc
  | PTok.num _ :: rest, some PLetter.zrel, ap, sp, fp, acc =>
      if ap ≠ fp ∧ acc ≠ [] then
        parseLoop rest (some PLetter.zrel) fp sp fp (acc ++ [mkLine fp.1 fp.2])
      else
        parseLoop rest (some PLetter.zrel) ap sp fp acc
  | PTok.num _ :: rest, cc, ap, sp, fp, acc => parseLoop rest cc ap sp fp acc

/-- `parse_path_data` on an already-tokenized path string: the loop starts
with `current_cmd = None`, `abs_position = start_position = first_position
= [0, 0]`, and an empty command list. -/
def parse_path_data (toks : List PTok) : List Cmd :=
  parseLoop toks none (0, 0) (0, 0) (0, 0) []

/-- Token stream of the path string `"M 0,0 L 10,0 M 5,5 L 6,6 Z"`:
two subpaths, the second closed by `Z`. -/
def c1Toks : List PTok :=
  [PTok.letter PLetter.Mabs, PTok.num 0, PTok.num 0,
   PTok.letter PLetter.Labs, PTok.num 10, PTok.num 0,
   PTok.letter PLetter.Mabs, PTok.num 5, PTok.num 5,
   PTok.letter PLetter.Labs, PTok.num 6, PTok.num 6,
   PTok.letter PLetter.Zabs]

/-- C1.  The claim requires every `Z`/`z` to emit exactly one `Line` back to
the start point of its own current subpath.  The code disagrees twice on the
path `"M 0,0 L 10,0 M 5,5 L 6,6 Z"`: (1) a trailing `Z` produces no closing
`Line` at all, because the `Zz` branch of the loop only executes when a
numeric token follows the `Z`; (2) when a stray numeric token does follow the
`Z`, the emitted `Line` targets `first_position = (0,0)` — the first
subpath's start, which the `Mm` branch failed to update because the command
before `M 5,5` was a line — instead of the current subpath's start `(5,5)`
held in the never-read `start_position`. -/
theorem c1_close_goes_to_wrong_subpath :
    parse_path_data c1Toks =
      [mkMove 0 0, mkLine 10 0, mkMove 5 5, mkLine 6 6] ∧
    parse_path_data (c1Toks ++ [PTok.num 9]) =
      [mkMove 0 0, mkLine 10 0, mkMove 5 5, mkLine 6 6, mkLine 0 0] := by
  constructor
  · norm_num [parse_path_data, parseLoop, c1Toks, lastIsMove, mkMove, mkLine]
  · norm_num [parse_path_data, parseLoop, c1Toks, lastIsMove, mkMove, mkLine]
    simp

/-
Robot configuration.  `RobotConfig.__init__` of `Onlab/svg_code.py` plus the
converter settings copied from the module constants in
`SVGToTrajectoryConverter.__init__`.  The default values are the ones in
force when no calibration file exists (`center_x = center_y = z_surface = 0`,
`home_position = [-37, -295, -42, 2.2, 2.2, 0]`) together with
`DRAWING_SCALE = 0.35`, `PRESERVE_ASPECT_RATIO = True`,
`DRAWING_OFFSET_X = DRAWING_OFFSET_Y = 0`, `PEN_UP_Z = 20`, `PEN_DOWN_Z = 0`.
-/

/-- Onlab converter configuration (robot calibration + drawing settings). -/
structure OnlabConfig where
  center_x : ℚ
  center_y : ℚ
  z_surface : ℚ
  rx : ℚ
  ry : ℚ
  rz : ℚ
  home_x : ℚ
  home_y : ℚ
  home_z : ℚ
  scale_factor : ℚ
  preserve_aspect : Bool
  offset_x : ℚ
  offset_y : ℚ
  pen_up_z : ℚ
  pen_down_z : ℚ
deriving DecidableEq

/-- The default Onlab configuration (no calibration file present). -/
def defaultOnlabConfig : OnlabConfig :=
  ⟨0, 0, 0, 2.2, 2.2, 0, -37, -295, -42, 0.35, true, 0, 0, 20, 0⟩

/-- A 6-component tool pose `[x, y, z, rx, ry, rz]`. -/
structure Pose where
  x : ℚ
  y : ℚ
  z : ℚ
  rx : ℚ
  ry : ℚ
  rz : ℚ
deriving DecidableEq

/-- A trajectory step, the Python tuple `('move'|'line', pose)`. -/
structure Step where
  tag : CTag
  pose : Pose
deriving DecidableEq

/-
Trajectory generator, from `Onlab/svg_code.py`, `generate_trajectory`
(lines 990-1084): a pen state machine over the mapped commands.
-/

/-- The pen state tracked by `generate_trajectory` (`pen_state` variable,
initially `"up"`). -/
inductive PenState
| up
| down
deriving DecidableEq

/-- Machine state of the generator loop: pen state plus the tracked current
XY (`current_x` / `current_y`, both `None` initially). -/
abbrev GenState := PenState × Option Point

/-- A pose at pen-up height above `p` (used both for the lift-in-place step
and for ordinary `move` targets): `[x, y, z_surface + pen_up_z, rx, ry, rz]`. -/
def penUpStep (cfg : OnlabConfig) (p : Point) : Step :=
  ⟨CTag.move, ⟨p.1, p.2, cfg.z_surface + cfg.pen_up_z, cfg.rx, cfg.ry, cfg.rz⟩⟩

/-- A pose at pen-down height at `p` (used both for the lower-in-place step
and for ordinary `line` targets): `[x, y, z_surface + pen_down_z, rx, ry, rz]`. -/
def penDownStep (cfg : OnlabConfig) (p : Point) : Step :=
  ⟨CTag.line, ⟨p.1, p.2, cfg.z_surface + cfg.pen_down_z, cfg.rx, cfg.ry, cfg.rz⟩⟩

/-- The trailing safe step: a `move` to `home_position[0..2]` with the
calibrated orientation (lines 1069-1081). -/
def homeStep (cfg : OnlabConfig) : Step :=
  ⟨CTag.move, ⟨cfg.home_x, cfg.home_y, cfg.home_z, cfg.rx, cfg.ry, cfg.rz⟩⟩

/-- One iteration of the generator loop: the steps it appends to the
trajectory and the successor machine state.  For a `move` while the pen is
down at a known position the pen is lifted in place first (and only then the
state flips to up, line 1015); for a `line` while the pen is up at a known
position it is lowered in place first; a `line` always leaves the pen down
(line 1054). -/
def emitCmd (cfg : OnlabConfig) (s : GenState) (c : Cmd) : List Step × GenState :=
  match c.tag with
  | CTag.move =>
    let pre : List Step :=
      match s with
      | (PenState.down, some p) => [penUpStep cfg p]
      | _ => []
    let st2 : PenState :=
      match s with
      | (PenState.down, some _) => PenState.up
      | (st, _) => st
    (pre ++ [penUpStep cfg (c.x, c.y)], (st2, some (c.x, c.y)))
  | CTag.line =>
    let pre : List Step :=
      match s with
      | (PenState.up, some p) => [penDownStep cfg p]
      | _ => []
    (pre ++ [penDownStep cfg (c.x, c.y)], (PenState.down, some (c.x, c.y)))

/-- The steps appended by the main for-loop of `generate_trajectory`. -/
def emitAll (cfg : OnlabConfig) : List Cmd → GenState → List Step
  | [], _ => []
  | c :: rest, s => (emitCmd cfg s c).1 ++ emitAll cfg rest (emitCmd cfg s c).2

/-- The machine state after the main for-loop. -/
def finalState (cfg : OnlabConfig) : List Cmd → GenState → GenState
  | [], s => s
  | c :: rest, s => finalState cfg rest (emitCmd cfg s c).2

/-- The end-of-loop lift (lines 1057-1066): if the pen is still down at a
known position, one lift-in-place step. -/
def endLift (cfg : OnlabConfig) (s : GenState) : List Step :=
  match s with
  | (PenState.down, some p) => [penUpStep cfg p]
  | _ => []

/-- `generate_trajectory` (lines 990-1084).  Empty input returns an empty
trajectory (line 992); otherwise the loop output, the end-of-loop lift and
the trailing home step.  The Python guard `if trajectory:` before the home
step always holds for non-empty input because every command appends at least
one step. -/
def generate_trajectory (cfg : OnlabConfig) (cmds : List Cmd) : List Step :=
  match cmds with
  | [] => []
  | _ =>
    emitAll cfg cmds (PenState.up, none) ++
      endLift cfg (finalState cfg cmds (PenState.up, none)) ++ [homeStep cfg]

/-- The tag sequence of a generated trajectory. -/
def trajTags (cfg : OnlabConfig) (cmds : List Cmd) : List CTag :=
  (generate_trajectory cfg cmds).map Step.tag

/-- Successor states of the generator loop always record the command's target
as the current position (`current_x, current_y = x, y` in both branches). -/
lemma emitCmd_snd_pos (cfg : OnlabConfig) (s : GenState) (c : Cmd) :
    ((emitCmd cfg s c).2).2 = some (c.x, c.y) := by
  rcases c with ⟨tag, x, y⟩
  cases tag <;> rfl

/-- After a non-empty command list the loop state holds a current position. -/
lemma finalState_pos (cfg : OnlabConfig) :
    ∀ (cmds : List Cmd) (s : GenState), cmds ≠ [] →
      ∃ p, (finalState cfg cmds s).2 = some p := by
  intro cmds
  induction cmds with
  | nil => intro s h; exact absurd rfl h
  | cons c rest ih =>
    intro s _
    cases rest with
    | nil => exact ⟨(c.x, c.y), by simp [finalState, emitCmd_snd_pos]⟩
    | cons d rest2 => exact ih _ (by simp)

/-- Appending one element fixes `getLast?`. -/
lemma getLast?_append_single {α : Type} (l : List α) (a : α) :
    (l ++ [a]).getLast? = some a := by
  exact List.getLast?_concat _

/-- `k` is the unique pen-lower transition at or before position `i` from
which the pen stays down through `i`: position `k` is a `line` step entered
from a `move` step (or from the start of the trajectory), and every step
from `k` to `i` is a `line` step. -/
def lowerSince (tags : List CTag) (i k : ℕ) : Prop :=
  k ≤ i ∧ tags[k]? = some CTag.line ∧ (k = 0 ∨ tags[k - 1]? = some CTag.move) ∧
    ∀ m, k ≤ m → m ≤ i → tags[m]? = some CTag.line

/-- In any tag sequence, every `line` position has exactly one pen-lower
transition since the last pen-lift before it. -/
lemma lowerSince_unique (tags : List CTag) :
    ∀ i, tags[i]? = some CTag.line → ∃! k, lowerSince tags i k := by
  intro i
  induction i using Nat.strong_induction_on with
  | _ i ih =>
    intro hi
    cases i with
    | zero =>
      refine ⟨0, ⟨le_refl 0, hi, Or.inl rfl, ?_⟩, ?_⟩
      · intro m _ hm
        have hm0 : m = 0 := Nat.le_zero.mp hm
        rw [hm0]
        exact hi
      · rintro k' ⟨hk', _⟩
        exact Nat.le_zero.mp hk'
    | succ n =>
      have hlen : n + 1 < tags.length := by
        rcases List.getElem?_eq_some.mp hi with ⟨hfoo, _⟩
        exact hfoo
      have hn : n < tags.length := Nat.lt_of_succ_lt hlen
      cases htag : tags[n] with
      | move =>
        have hmove : tags[n]? = some CTag.move := by
          rw [List.getElem?_eq_getElem hn, htag]
        refine ⟨n + 1, ⟨le_refl _, hi, Or.inr (by simpa using hmove), ?_⟩, ?_⟩
        · intro m h1 h2
          have hmeq : m = n + 1 := le_antisymm h2 h1
          rw [hmeq]
          exact hi
        · rintro k' ⟨hk'le, hk'line, hk'tr, hk'run⟩
          by_contra hne
          have hk'n : k' ≤ n := by omega
          have hcontra := hk'run n hk'n (by omega)
          rw [hmove] at hcontra
          exact absurd (Option.some.inj hcontra) (by intro hfoo; cases hfoo)
      | line =>
        have hin : tags[n]? = some CTag.line := by
          rw [List.getElem?_eq_getElem hn, htag]
        rcases ih n (by omega) hin with ⟨k₀, ⟨hk₀le, hk₀line, hk₀tr, hk₀run⟩, huniq⟩
        refine ⟨k₀, ⟨by omega, hk₀line, hk₀tr, ?_⟩, ?_⟩
        · intro m h1 h2
          rcases Nat.lt_or_ge m (n + 1) with hm | hm
          · exact hk₀run m h1 (by omega)
          · have hmeq : m = n + 1 := by omega
            rw [hmeq]
            exact hi
        · rintro k' ⟨hk'le, hk'line, hk'tr, hk'run⟩
          have hk'n : k' ≤ n := by
            by_contra hgt
            have hk'eq : k' = n + 1 := by omega
            rw [hk'eq] at hk'tr
            rcases hk'tr with h0 | hmv
            · omega
            · rw [show n + 1 - 1 = n by omega, hin] at hmv
              exact absurd (Option.some.inj hmv) (by intro hfoo; cases hfoo)
          exact huniq k' ⟨hk'n, hk'line, hk'tr, fun m h1 h2 => hk'run m h1 (by omega)⟩

/-- C2.  The generator is a two-state pen machine started in `PEN_UP`: the
trajectory of a non-empty command list ends with exactly one trailing home
`Move` (hence terminates pen-up); lifting in place precedes a `Move` taken
while `PEN_DOWN`; lowering in place precedes a `Line` taken while `PEN_UP`;
if the loop ends `PEN_DOWN` a final lift-in-place step at the tracked
position precedes the home step; and every `Line` step of the result is
preceded by exactly one pen-lower transition since the last pen-lift. -/
theorem c2_pen_state_machine (cfg : OnlabConfig) (cmds : List Cmd) (h : cmds ≠ []) :
    (generate_trajectory cfg cmds).getLast? = some (homeStep cfg) ∧
    (homeStep cfg).tag = CTag.move ∧
    (∀ q x y, emitCmd cfg (PenState.down, some q) (mkMove x y) =
        ([penUpStep cfg q, penUpStep cfg (x, y)], (PenState.up, some (x, y)))) ∧
    (∀ cur x y, emitCmd cfg (PenState.up, cur) (mkMove x y) =
        ([penUpStep cfg (x, y)], (PenState.up, some (x, y)))) ∧
    (∀ q x y, emitCmd cfg (PenState.up, some q) (mkLine x y) =
        ([penDownStep cfg q, penDownStep cfg (x, y)], (PenState.down, some (x, y)))) ∧
    (∀ cur x y, emitCmd cfg (PenState.down, cur) (mkLine x y) =
        ([penDownStep cfg (x, y)], (PenState.down, some (x, y)))) ∧
    (∀ p, finalState cfg cmds (PenState.up, none) = (PenState.down, some p) →
        generate_trajectory cfg cmds =
          emitAll cfg cmds (PenState.up, none) ++ [penUpStep cfg p, homeStep cfg]) ∧
    ((finalState cfg cmds (PenState.up, none)).1 = PenState.down →
        ∃ p, (finalState cfg cmds (PenState.up, none)).2 = some p) ∧
    (∀ i, (trajTags cfg cmds)[i]? = some CTag.line →
        ∃! k, lowerSince (trajTags cfg cmds) i k) := by
  obtain ⟨c, rest, rfl⟩ : ∃ c rest, cmds = c :: rest := by
    cases cmds with
    | nil => exact absurd rfl h
    | cons c rest => exact ⟨c, rest, rfl⟩
  refine ⟨?_, rfl, ?_, ?_, ?_, ?_, ?_, ?_, ?_⟩
  · show (emitAll cfg _ _ ++ endLift cfg _ ++ [homeStep cfg]).getLast? = _
    exact getLast?_append_single _ _
  · intro q x y; rfl
  · intro cur x y; cases cur <;> rfl
  · intro q x y; rfl
  · intro cur x y; cases cur <;> rfl
  · intro p hp
    show emitAll cfg _ _ ++ endLift cfg _ ++ [homeStep cfg] = _
    rw [hp]
    simp [endLift]
  · intro _
    exact finalState_pos cfg _ _ (by simp)
  · exact fun i hi => lowerSince_unique _ i hi

/-- Witness for C2 at a concrete input. -/
theorem c2_pen_state_machine_witness :
    (generate_trajectory defaultOnlabConfig [mkMove 1 2, mkLine 3 4]).getLast? =
      some (homeStep defaultOnlabConfig) :=
  (c2_pen_state_machine defaultOnlabConfig [mkMove 1 2, mkLine 3 4] (by simp)).1

/-- Every step emitted by one loop iteration is a pen-up pose or a pen-down
pose at some point. -/
lemma mem_emitCmd (cfg : OnlabConfig) (s : GenState) (c : Cmd) (step : Step)
    (h : step ∈ (emitCmd cfg s c).1) :
    (∃ p, step = penUpStep cfg p) ∨ ∃ p, step = penDownStep cfg p := by
  rcases c with ⟨tag, x, y⟩
  rcases s with ⟨st, cur⟩
  cases tag <;> cases st <;> cases cur <;> simp [emitCmd] at h <;>
    first
      | exact Or.inl ⟨(x, y), h⟩
      | exact Or.inr ⟨(x, y), h⟩
      | (rcases h with h | h
         · exact Or.inl ⟨_, h⟩
         · exact Or.inl ⟨(x, y), h⟩)
      | (rcases h with h | h
         · exact Or.inr ⟨_, h⟩
         · exact Or.inr ⟨(x, y), h⟩)

/-- Every step emitted by the main loop is a pen-up pose or a pen-down pose. -/
lemma mem_emitAll (cfg : OnlabConfig) :
    ∀ (cmds : List Cmd) (s : GenState) (step : Step), step ∈ emitAll cfg cmds s →
      (∃ p, step = penUpStep cfg p) ∨ ∃ p, step = penDownStep cfg p := by
  intro cmds
  induction cmds with
  | nil => intro s step hmem; simp [emitAll] at hmem
  | cons c rest ih =>
    intro s step hmem
    rcases List.mem_append.mp (by simpa [emitAll] using hmem) with hmem | hmem
    · exact mem_emitCmd cfg s c step hmem
    · exact ih _ step hmem

/-- C3 (amended).  Every `line` step sits at `z_surface + pen_down_z` and
every `move` step at `z_surface + pen_up_z`, except the single trailing home
step, whose pose is the configured `home_position` (its Z is `home_z`, not
`z_surface + pen_up_z`); the configured default offsets satisfy
`pen_down_z < pen_up_z`. -/
theorem c3_z_levels (cfg : OnlabConfig) (cmds : List Cmd) (s : Step)
    (hs : s ∈ generate_trajectory cfg cmds) :
    (s.tag = CTag.line → s.pose.z = cfg.z_surface + cfg.pen_down_z) ∧
    (s.tag = CTag.move → s.pose.z = cfg.z_surface + cfg.pen_up_z ∨ s = homeStep cfg) ∧
    (homeStep cfg).pose.z = cfg.home_z ∧
    defaultOnlabConfig.pen_down_z < defaultOnlabConfig.pen_up_z := by
  have hcase : (∃ p, s = penUpStep cfg p) ∨ (∃ p, s = penDownStep cfg p) ∨ s = homeStep cfg := by
    cases cmds with
    | nil => simp [generate_trajectory] at hs
    | cons c rest =>
      have hs2 : s ∈ emitAll cfg (c :: rest) (PenState.up, none) ++
          endLift cfg (finalState cfg (c :: rest) (PenState.up, none)) ++ [homeStep cfg] := hs
      rcases List.mem_append.mp hs2 with hmem | hmem
      · rcases List.mem_append.mp hmem with hmem | hmem
        · rcases mem_emitAll cfg _ _ s hmem with hp | hp
          · exact Or.inl hp
          · exact Or.inr (Or.inl hp)
        · rcases hst : finalState cfg (c :: rest) (PenState.up, none) with ⟨st, cur⟩
          rw [hst] at hmem
          cases st <;> cases cur <;> simp [endLift] at hmem
          exact Or.inl ⟨_, hmem⟩
      · exact Or.inr (Or.inr (by simpa using hmem))
  refine ⟨?_, ?_, rfl, by norm_num [defaultOnlabConfig]⟩
  · intro htag
    rcases hcase with ⟨p, rfl⟩ | ⟨p, rfl⟩ | rfl
    · cases htag
    · rfl
    · cases htag
  · intro htag
    rcases hcase with ⟨p, rfl⟩ | ⟨p, rfl⟩ | rfl
    · exact Or.inl rfl
    · cases htag
    · exact Or.inr rfl

/-- The trajectory of the single command `('move', 0, 0)` under the default
configuration: one pen-up step, then the home step. -/
lemma traj_single_move :
    generate_trajectory defaultOnlabConfig [mkMove 0 0] =
      [penUpStep defaultOnlabConfig (0, 0), homeStep defaultOnlabConfig] := by
  rfl

/-- C3 (counterexample).  The trailing home step is tagged `move` but its Z
is `home_z = -42`, not `z_surface + pen_up_z = 20`: the claim's Z invariant
fails on the trailing home step. -/
theorem c3_counterexample :
    ∃ s ∈ generate_trajectory defaultOnlabConfig [mkMove 0 0],
      s.tag = CTag.move ∧
        s.pose.z ≠ defaultOnlabConfig.z_surface + defaultOnlabConfig.pen_up_z := by
  refine ⟨homeStep defaultOnlabConfig, ?_, rfl, ?_⟩
  · rw [traj_single_move]
    simp
  · norm_num [homeStep, defaultOnlabConfig]

/-- Witness for C3 (amended) at a concrete input. -/
theorem c3_z_levels_witness :
    ((homeStep defaultOnlabConfig).tag = CTag.line →
        (homeStep defaultOnlabConfig).pose.z =
          defaultOnlabConfig.z_surface + defaultOnlabConfig.pen_down_z) ∧
    ((homeStep defaultOnlabConfig).tag = CTag.move →
        (homeStep defaultOnlabConfig).pose.z =
            defaultOnlabConfig.z_surface + defaultOnlabConfig.pen_up_z ∨
          homeStep defaultOnlabConfig = homeStep defaultOnlabConfig) ∧
    (homeStep defaultOnlabConfig).pose.z = defaultOnlabConfig.home_z ∧
    defaultOnlabConfig.pen_down_z < defaultOnlabConfig.pen_up_z :=
  c3_z_levels defaultOnlabConfig [mkMove 0 0] (homeStep defaultOnlabConfig)
    (by rw [traj_single_move]; simp)

/-
Workspace mappers.  `scale_to_robot_coordinates` from `Onlab/svg_code.py`
(lines 933-988) and `scale_to_a4` from `svg_code.py` (lines 570-618).  Both
begin by folding a bounding box over all command points; the Python loops
start from `±inf`, which for a non-empty list equals folding `min`/`max`
from the first element.  Every command in the embedded `Cmd` type carries the
`'move'`/`'line'` tag the Python loop filters on, so the filter is the
identity here.
-/

/-- The x coordinates of a command list. -/
def xsOf (cmds : List Cmd) : List ℚ := cmds.map Cmd.x

/-- The y coordinates of a command list. -/
def ysOf (cmds : List Cmd) : List ℚ := cmds.map Cmd.y

/-- Minimum of a list of rationals (0 for the empty list, which the guarded
callers never consult). -/
def listMin : List ℚ → ℚ
  | [] => 0
  | a :: r => r.foldl min a

/-- Maximum of a list of rationals (0 for the empty list). -/
def listMax : List ℚ → ℚ
  | [] => 0
  | a :: r => r.foldl max a

/-- `min_x` of the bounding-box loop. -/
def minX (cmds : List Cmd) : ℚ := listMin (xsOf cmds)

/-- `max_x` of the bounding-box loop. -/
def maxX (cmds : List Cmd) : ℚ := listMax (xsOf cmds)

/-- `min_y` of the bounding-box loop. -/
def minY (cmds : List Cmd) : ℚ := listMin (ysOf cmds)

/-- `max_y` of the bounding-box loop. -/
def maxY (cmds : List Cmd) : ℚ := listMax (ysOf cmds)

/-- `svg_width = max_x - min_x`. -/
def srcWidth (cmds : List Cmd) : ℚ := maxX cmds - minX cmds

/-- `svg_height = max_y - min_y`. -/
def srcHeight (cmds : List Cmd) : ℚ := maxY cmds - minY cmds

/-- `svg_center_x = min_x + svg_width / 2`. -/
def srcCenterX (cmds : List Cmd) : ℚ := minX cmds + srcWidth cmds / 2

/-- `svg_center_y = min_y + svg_height / 2`. -/
def srcCenterY (cmds : List Cmd) : ℚ := minY cmds + srcHeight cmds / 2

/-- A4 width in mm (`Onlab/svg_code.py`). -/
def A4_WIDTH : ℚ := 210

/-- A4 height in mm (`Onlab/svg_code.py`). -/
def A4_HEIGHT : ℚ := 297

/-- The scaling factors of `scale_to_robot_coordinates` (lines 959-967):
aspect-preserving mode uses `min(A4_WIDTH/w, A4_HEIGHT/h) * scale_factor` on
both axes, otherwise the two per-axis ratios times `scale_factor`. -/
def onlabScale (cfg : OnlabConfig) (cmds : List Cmd) : ℚ × ℚ :=
  if cfg.preserve_aspect then
    (min (A4_WIDTH / srcWidth cmds) (A4_HEIGHT / srcHeight cmds) * cfg.scale_factor,
     min (A4_WIDTH / srcWidth cmds) (A4_HEIGHT / srcHeight cmds) * cfg.scale_factor)
  else
    (A4_WIDTH / srcWidth cmds * cfg.scale_factor,
     A4_HEIGHT / srcHeight cmds * cfg.scale_factor)

/-- `scale_to_robot_coordinates` (lines 933-988).  The function has no guard
on a degenerate bounding box: in either aspect mode both `A4_WIDTH /
svg_width` and `A4_HEIGHT / svg_height` are evaluated, so Python raises
`ZeroDivisionError` whenever `svg_width = 0` or `svg_height = 0`; the raise
is modelled as `none`.  Otherwise every point is centered on the source
bounding-box center, scaled, and translated to the robot center plus the
configured offsets. -/
def scale_to_robot_coordinates (cfg : OnlabConfig) (cmds : List Cmd) :
    Option (List Cmd) :=
  match cmds with
  | [] => some []
  | _ =>
    if srcWidth cmds = 0 ∨ srcHeight cmds = 0 then none
    else
      some (cmds.map (fun c =>
        ⟨c.tag,
         cfg.center_x + (c.x - srcCenterX cmds) * (onlabScale cfg cmds).1 + cfg.offset_x,
         cfg.center_y + (c.y - srcCenterY cmds) * (onlabScale cfg cmds).2 + cfg.offset_y⟩))

/-- Root converter configuration (`svg_code.py`, constructor arguments). -/
structure RootConfig where
  center_x : ℚ
  center_y : ℚ
  z_surface : ℚ
  pen_up_z : ℚ
  pen_down_z : ℚ
  rx : ℚ
  ry : ℚ
  rz : ℚ
deriving DecidableEq

/-- The module-constant configuration of `svg_code.py`:
`CENTER_X = CENTER_Y = Z_SURFACE = 0`, `PEN_UP_Z = 0.07`, `PEN_DOWN_Z = 0`,
`RX = 0`, `RY = 3.14159`, `RZ = 0`. -/
def defaultRootConfig : RootConfig := ⟨0, 0, 0, 0.07, 0, 0, 3.14159, 0⟩

/-- A4 width in meters (`svg_code.py`). -/
def A4_WIDTH_M : ℚ := 0.210

/-- A4 height in meters (`svg_code.py`). -/
def A4_HEIGHT_M : ℚ := 0.297

/-- `scale_x` of `scale_to_a4` (line 595): falls back to 1 when
`svg_width` is not positive. -/
def rootScaleX (cmds : List Cmd) : ℚ :=
  if 0 < srcWidth cmds then A4_WIDTH_M * 0.9 / srcWidth cmds else 1

/-- `scale_y` of `scale_to_a4` (line 596): falls back to 1 when
`svg_height` is not positive. -/
def rootScaleY (cmds : List Cmd) : ℚ :=
  if 0 < srcHeight cmds then A4_HEIGHT_M * 0.9 / srcHeight cmds else 1

/-- `scale = min(scale_x, scale_y)` (line 599). -/
def rootScale (cmds : List Cmd) : ℚ := min (rootScaleX cmds) (rootScaleY cmds)

/-- `scale_to_a4` (lines 570-618): centers on the source bounding-box
center, applies the uniform `rootScale` factor, and translates to the
configured A4 center.  Total: no division by zero can occur. -/
def scale_to_a4 (cfg : RootConfig) (cmds : List Cmd) : List Cmd :=
  match cmds with
  | [] => []
  | _ =>
    cmds.map (fun c =>
      ⟨c.tag,
       cfg.center_x + (c.x - srcCenterX cmds) * rootScale cmds,
       cfg.center_y + (c.y - srcCenterY cmds) * rootScale cmds⟩)

/-- C4 (counterexample).  On the non-empty degenerate drawing consisting of
the single point `(5, 5)` the Onlab workspace mapper does not fall back to
scale 1: it divides by the zero extent and raises `ZeroDivisionError`
(modelled as `none`), refuting the claim for `scale_to_robot_coordinates`. -/
theorem c4_counterexample :
    scale_to_robot_coordinates defaultOnlabConfig [mkMove 5 5] = none := by
  norm_num [scale_to_robot_coordinates, srcWidth, srcHeight, minX, maxX, minY, maxY,
    listMin, listMax, xsOf, ysOf, mkMove]

/-- C4 (amended).  Only the root converter's `scale_to_a4` implements the
degenerate-extent fallback: a non-positive width (resp. height) makes its
per-axis ratio fall back to 1 and it always returns one mapped command per
input command without error; the Onlab `scale_to_robot_coordinates`, by
contrast, raises a division-by-zero error on every non-empty command list
whose bounding box has zero width or zero height. -/
theorem c4_degenerate_fallback (cfgR : RootConfig) (cfgO : OnlabConfig)
    (cmds : List Cmd) (hdeg : srcWidth cmds = 0 ∨ srcHeight cmds = 0) :
    (srcWidth cmds ≤ 0 → rootScaleX cmds = 1) ∧
    (srcHeight cmds ≤ 0 → rootScaleY cmds = 1) ∧
    (scale_to_a4 cfgR cmds).length = cmds.length ∧
    (cmds ≠ [] → scale_to_robot_coordinates cfgO cmds = none) := by
  refine ⟨?_, ?_, ?_, ?_⟩
  · intro hw
    rw [rootScaleX, if_neg (not_lt.mpr hw)]
  · intro hh
    rw [rootScaleY, if_neg (not_lt.mpr hh)]
  · cases cmds with
    | nil => rfl
    | cons c rest => simp [scale_to_a4]
  · intro hne
    cases cmds with
    | nil => exact absurd rfl hne
    | cons c rest =>
      show (if srcWidth (c :: rest) = 0 ∨ srcHeight (c :: rest) = 0 then none else _) = none
      rw [if_pos hdeg]

/-- Witness for C4 (amended) at the single-point drawing `(5, 5)`. -/
theorem c4_degenerate_fallback_witness :
    rootScaleX [mkMove 5 5] = 1 ∧
    scale_to_a4 defaultRootConfig [mkMove 5 5] =
      [⟨CTag.move, defaultRootConfig.center_x, defaultRootConfig.center_y⟩] := by
  have hdeg : srcWidth [mkMove 5 5] = 0 := by
    norm_num [srcWidth, minX, maxX, listMin, listMax, xsOf, mkMove]
  have hthm := c4_degenerate_fallback defaultRootConfig defaultOnlabConfig
    [mkMove 5 5] (Or.inl hdeg)
  refine ⟨hthm.1 (le_of_eq hdeg), ?_⟩
  norm_num [scale_to_a4, rootScale, rootScaleX, rootScaleY, srcWidth, srcHeight,
    srcCenterX, srcCenterY, minX, maxX, minY, maxY, listMin, listMax, xsOf, ysOf,
    mkMove, defaultRootConfig]

/-- Uniform pre-scaling of a drawing: every source coordinate multiplied
by `k` (the claim's pre-scaled input, and also the claim's post-scaling of
mapped coordinates). -/
def scaleCmds (k : ℚ) (cmds : List Cmd) : List Cmd :=
  cmds.map (fun c => ⟨c.tag, k * c.x, k * c.y⟩)

/-- Folding `min` commutes with multiplication by a nonnegative constant. -/
lemma foldl_min_map_mul (k : ℚ) (hk : 0 ≤ k) (l : List ℚ) :
    ∀ a, (l.map (fun x => k * x)).foldl min (k * a) = k * l.foldl min a := by
  induction l with
  | nil => intro a; simp
  | cons b t ih =>
    intro a
    simp only [List.map, List.foldl]
    rw [← mul_min_of_nonneg _ _ hk]
    exact ih (min a b)

/-- Folding `max` commutes with multiplication by a nonnegative constant. -/
lemma foldl_max_map_mul (k : ℚ) (hk : 0 ≤ k) (l : List ℚ) :
    ∀ a, (l.map (fun x => k * x)).foldl max (k * a) = k * l.foldl max a := by
  induction l with
  | nil => intro a; simp
  | cons b t ih =>
    intro a
    simp only [List.map, List.foldl]
    rw [← mul_max_of_nonneg _ _ hk]
    exact ih (max a b)

/-- `listMin` commutes with multiplication by a nonnegative constant. -/
lemma listMin_map_mul (k : ℚ) (hk : 0 ≤ k) (l : List ℚ) :
    listMin (l.map (fun x => k * x)) = k * listMin l := by
  cases l with
  | nil => simp [listMin]
  | cons a r => exact foldl_min_map_mul k hk r a

/-- `listMax` commutes with multiplication by a nonnegative constant. -/
lemma listMax_map_mul (k : ℚ) (hk : 0 ≤ k) (l : List ℚ) :
    listMax (l.map (fun x => k * x)) = k * listMax l := by
  cases l with
  | nil => simp [listMax]
  | cons a r => exact foldl_max_map_mul k hk r a

/-- The x coordinates of a pre-scaled drawing. -/
lemma xsOf_scale (k : ℚ) (cmds : List Cmd) :
    xsOf (scaleCmds k cmds) = (xsOf cmds).map (fun x => k * x) := by
  simp [xsOf, scaleCmds, List.map_map, Function.comp]

/-- The y coordinates of a pre-scaled drawing. -/
lemma ysOf_scale (k : ℚ) (cmds : List Cmd) :
    ysOf (scaleCmds k cmds) = (ysOf cmds).map (fun x => k * x) := by
  simp [ysOf, scaleCmds, List.map_map, Function.comp]

/-- Bounding-box data of a pre-scaled drawing. -/
lemma bbox_scale (k : ℚ) (hk : 0 ≤ k) (cmds : List Cmd) :
    minX (scaleCmds k cmds) = k * minX cmds ∧
    maxX (scaleCmds k cmds) = k * maxX cmds ∧
    minY (scaleCmds k cmds) = k * minY cmds ∧
    maxY (scaleCmds k cmds) = k * maxY cmds := by
  refine ⟨?_, ?_, ?_, ?_⟩
  · rw [minX, xsOf_scale, listMin_map_mul k hk, minX]
  · rw [maxX, xsOf_scale, listMax_map_mul k hk, maxX]
  · rw [minY, ysOf_scale, listMin_map_mul k hk, minY]
  · rw [maxY, ysOf_scale, listMax_map_mul k hk, maxY]

/-- Extents of a pre-scaled drawing. -/
lemma extent_scale (k : ℚ) (hk : 0 ≤ k) (cmds : List Cmd) :
    srcWidth (scaleCmds k cmds) = k * srcWidth cmds ∧
    srcHeight (scaleCmds k cmds) = k * srcHeight cmds := by
  obtain ⟨h1, h2, h3, h4⟩ := bbox_scale k hk cmds
  constructor
  · rw [srcWidth, h1, h2, srcWidth]; ring
  · rw [srcHeight, h3, h4, srcHeight]; ring

/-- The drawing `move (0,0), line (1,0), line (0,2)` used to refute C5. -/
def c5Src : List Cmd := [mkMove 0 0, mkLine 1 0, mkLine 0 2]

/-- C5 (counterexample).  In aspect-preserving mode with the default
configuration, mapping the drawing `c5Src` pre-scaled by `k = 2` does not
equal the original mapped output with every coordinate multiplied by 2: the
mapper normalizes by the source bounding box, so post-multiplying the mapped
coordinates changes them (e.g. the first mapped x is `-2079/80`, not
`-2079/40`). -/
theorem c5_counterexample :
    scale_to_robot_coordinates defaultOnlabConfig (scaleCmds 2 c5Src) ≠
      Option.map (scaleCmds 2) (scale_to_robot_coordinates defaultOnlabConfig c5Src) := by
  norm_num [scale_to_robot_coordinates, scaleCmds, c5Src, onlabScale, srcWidth,
    srcHeight, srcCenterX, srcCenterY, minX, maxX, minY, maxY, listMin, listMax,
    xsOf, ysOf, mkMove, mkLine, defaultOnlabConfig, A4_WIDTH, A4_HEIGHT]

/-- C5 (amended).  In aspect-preserving mode the Onlab workspace mapper is
invariant under uniform pre-scaling: for every `k > 0`, mapping the drawing
pre-scaled by `k` produces output identical to mapping the original drawing
(the bounding-box normalization cancels `k` exactly), rather than `k` times
the original mapped output. -/
theorem c5_scale_invariance (cfg : OnlabConfig) (k : ℚ) (cmds : List Cmd)
    (hasp : cfg.preserve_aspect = true) (hk : 0 < k) :
    scale_to_robot_coordinates cfg (scaleCmds k cmds) =
      scale_to_robot_coordinates cfg cmds := by
  obtain ⟨hwk, hhk⟩ := extent_scale k hk.le cmds
  cases cmds with
  | nil => rfl
  | cons c₀ rest =>
    obtain ⟨h1, h2, h3, h4⟩ := bbox_scale k hk.le (c₀ :: rest)
    show (if srcWidth (scaleCmds k (c₀ :: rest)) = 0 ∨
            srcHeight (scaleCmds k (c₀ :: rest)) = 0 then none else _) =
        (if srcWidth (c₀ :: rest) = 0 ∨ srcHeight (c₀ :: rest) = 0 then none else _)
    by_cases hdeg : srcWidth (c₀ :: rest) = 0 ∨ srcHeight (c₀ :: rest) = 0
    · rw [if_pos, if_pos hdeg]
      rcases hdeg with hdeg | hdeg
      · exact Or.inl (by rw [hwk, hdeg, mul_zero])
      · exact Or.inr (by rw [hhk, hdeg, mul_zero])
    · push_neg at hdeg
      obtain ⟨hw, hh⟩ := hdeg
      rw [if_neg, if_neg (by push_neg; exact ⟨hw, hh⟩)]
      · have hscale : onlabScale cfg (scaleCmds k (c₀ :: rest)) =
            ((onlabScale cfg (c₀ :: rest)).1 / k, (onlabScale cfg (c₀ :: rest)).2 / k) := by
          simp only [onlabScale, hasp, if_pos, hwk, hhk]
          have hx : A4_WIDTH / (k * srcWidth (c₀ :: rest)) =
              A4_WIDTH / srcWidth (c₀ :: rest) / k := by
            rw [mul_comm, div_mul_eq_div_div]
          have hy : A4_HEIGHT / (k * srcHeight (c₀ :: rest)) =
              A4_HEIGHT / srcHeight (c₀ :: rest) / k := by
            rw [mul_comm, div_mul_eq_div_div]
          rw [hx, hy, min_div_div_right hk.le]
          simp only [Prod.mk.injEq]
          constructor <;> ring
        have hcx : srcCenterX (scaleCmds k (c₀ :: rest)) = k * srcCenterX (c₀ :: rest) := by
          rw [srcCenterX, h1, hwk, srcCenterX]; ring
        have hcy : srcCenterY (scaleCmds k (c₀ :: rest)) = k * srcCenterY (c₀ :: rest) := by
          rw [srcCenterY, h3, hhk, srcCenterY]; ring
        congr 1
        simp only [hscale, hcx, hcy]
        rw [show scaleCmds k (c₀ :: rest) =
              (c₀ :: rest).map (fun c => (⟨c.tag, k * c.x, k * c.y⟩ : Cmd)) from rfl,
            List.map_map]
        apply List.map_congr_left
        intro d _
        simp only [Function.comp]
        have hkne : k ≠ 0 := hk.ne'
        refine congrArg₂ (fun a b => Cmd.mk d.tag a b) ?_ ?_
        · field_simp
          ring
        · field_simp
          ring
      · push_neg
        constructor
        · rw [hwk]; exact mul_ne_zero hk.ne' hw
        · rw [hhk]; exact mul_ne_zero hk.ne' hh

/-- Witness for C5 (amended) at `k = 2` on a concrete drawing. -/
theorem c5_scale_invariance_witness :
    scale_to_robot_coordinates defaultOnlabConfig (scaleCmds 2 c5Src) =
      scale_to_robot_coordinates defaultOnlabConfig c5Src :=
  c5_scale_invariance defaultOnlabConfig 2 c5Src rfl (by norm_num)

/-- A `min` fold never exceeds its initial value. -/
lemma foldl_min_le_init (r : List ℚ) : ∀ a, r.foldl min a ≤ a := by
  induction r with
  | nil => intro a; exact le_refl a
  | cons b t ih => intro a; exact le_trans (ih (min a b)) (min_le_left a b)

/-- A `min` fold never exceeds any folded element. -/
lemma foldl_min_le_mem (r : List ℚ) : ∀ a x, x ∈ r → r.foldl min a ≤ x := by
  induction r with
  | nil => intro a x hx; simp at hx
  | cons b t ih =>
    intro a x hx
    rcases List.mem_cons.mp hx with rfl | hx
    · exact le_trans (foldl_min_le_init t (min a x)) (min_le_right a x)
    · exact ih (min a b) x hx

/-- A `max` fold is at least its initial value. -/
lemma init_le_foldl_max (r : List ℚ) : ∀ a, a ≤ r.foldl max a := by
  induction r with
  | nil => intro a; exact le_refl a
  | cons b t ih => intro a; exact le_trans (le_max_left a b) (ih (max a b))

/-- A `max` fold is at least any folded element. -/
lemma mem_le_foldl_max (r : List ℚ) : ∀ a x, x ∈ r → x ≤ r.foldl max a := by
  induction r with
  | nil => intro a x hx; simp at hx
  | cons b t ih =>
    intro a x hx
    rcases List.mem_cons.mp hx with rfl | hx
    · exact le_trans (le_max_right a x) (init_le_foldl_max t (max a x))
    · exact ih (max a b) x hx

/-- `listMin` bounds every member from below. -/
lemma listMin_le_of_mem (l : List ℚ) (x : ℚ) (hx : x ∈ l) : listMin l ≤ x := by
  cases l with
  | nil => simp at hx
  | cons a r =>
    rcases List.mem_cons.mp hx with rfl | hx
    · exact foldl_min_le_init r x
    · exact foldl_min_le_mem r a x hx

/-- `listMax` bounds every member from above. -/
lemma le_listMax_of_mem (l : List ℚ) (x : ℚ) (hx : x ∈ l) : x ≤ listMax l := by
  cases l with
  | nil => simp at hx
  | cons a r =>
    rcases List.mem_cons.mp hx with rfl | hx
    · exact init_le_foldl_max r x
    · exact mem_le_foldl_max r a x hx

/-- C6.  In aspect-preserving mode with offsets 0 and a margin factor
(`scale_factor`) between 0 and 1, every mapped point lies inside the A4
target rectangle centered at the configured robot center, and the applied
uniform factor never exceeds `min(A4_WIDTH/w, A4_HEIGHT/h) * scale_factor`. -/
theorem c6_fits_workspace (cfg : OnlabConfig) (cmds out : List Cmd) (c : Cmd)
    (hasp : cfg.preserve_aspect = true)
    (hw : 0 < srcWidth cmds) (hh : 0 < srcHeight cmds)
    (hox : cfg.offset_x = 0) (hoy : cfg.offset_y = 0)
    (hsf0 : 0 ≤ cfg.scale_factor) (hsf1 : cfg.scale_factor ≤ 1)
    (hmap : scale_to_robot_coordinates cfg cmds = some out)
    (hc : c ∈ out) :
    |c.x - cfg.center_x| ≤ A4_WIDTH / 2 ∧ |c.y - cfg.center_y| ≤ A4_HEIGHT / 2 ∧
    (onlabScale cfg cmds).1 ≤
      min (A4_WIDTH / srcWidth cmds) (A4_HEIGHT / srcHeight cmds) * cfg.scale_factor := by
  cases cmds with
  | nil => norm_num [srcWidth, minX, maxX, listMin, listMax, xsOf] at hw
  | cons c₀ rest =>
  set cmds := c₀ :: rest with hcmds
  have hout : out = cmds.map (fun d =>
      (⟨d.tag,
        cfg.center_x + (d.x - srcCenterX cmds) * (onlabScale cfg cmds).1 + cfg.offset_x,
        cfg.center_y + (d.y - srcCenterY cmds) * (onlabScale cfg cmds).2 + cfg.offset_y⟩ :
        Cmd)) := by
    have h2 : (if srcWidth cmds = 0 ∨ srcHeight cmds = 0 then none
        else some (cmds.map (fun d =>
          (⟨d.tag,
            cfg.center_x + (d.x - srcCenterX cmds) * (onlabScale cfg cmds).1 + cfg.offset_x,
            cfg.center_y + (d.y - srcCenterY cmds) * (onlabScale cfg cmds).2 +
              cfg.offset_y⟩ : Cmd)))) = some out := hmap
    rw [if_neg (by push_neg; exact ⟨hw.ne', hh.ne'⟩)] at h2
    exact (Option.some.inj h2).symm
  obtain ⟨d, hd, rfl⟩ := List.mem_map.mp (hout ▸ hc)
  have hs : (onlabScale cfg cmds).1 =
      min (A4_WIDTH / srcWidth cmds) (A4_HEIGHT / srcHeight cmds) * cfg.scale_factor := by
    simp [onlabScale, hasp]
  have hs2 : (onlabScale cfg cmds).2 =
      min (A4_WIDTH / srcWidth cmds) (A4_HEIGHT / srcHeight cmds) * cfg.scale_factor := by
    simp [onlabScale, hasp]
  have hA4w : (0 : ℚ) < A4_WIDTH := by norm_num [A4_WIDTH]
  have hA4h : (0 : ℚ) < A4_HEIGHT := by norm_num [A4_HEIGHT]
  have hmin0 : 0 ≤ min (A4_WIDTH / srcWidth cmds) (A4_HEIGHT / srcHeight cmds) :=
    le_min (div_nonneg hA4w.le hw.le) (div_nonneg hA4h.le hh.le)
  have hs0 : 0 ≤ (onlabScale cfg cmds).1 := hs ▸ mul_nonneg hmin0 hsf0
  have hdx : |d.x - srcCenterX cmds| ≤ srcWidth cmds / 2 := by
    have hmem : d.x ∈ xsOf cmds := List.mem_map_of_mem Cmd.x hd
    have hlo := listMin_le_of_mem _ _ hmem
    have hhi := le_listMax_of_mem _ _ hmem
    rw [abs_le]
    constructor <;>
      · simp only [srcCenterX, srcWidth, minX, maxX] at *
        linarith
  have hdy : |d.y - srcCenterY cmds| ≤ srcHeight cmds / 2 := by
    have hmem : d.y ∈ ysOf cmds := List.mem_map_of_mem Cmd.y hd
    have hlo := listMin_le_of_mem _ _ hmem
    have hhi := le_listMax_of_mem _ _ hmem
    rw [abs_le]
    constructor <;>
      · simp only [srcCenterY, srcHeight, minY, maxY] at *
        linarith
  refine ⟨?_, ?_, le_of_eq hs⟩
  · show |cfg.center_x + (d.x - srcCenterX cmds) * (onlabScale cfg cmds).1 + cfg.offset_x -
        cfg.center_x| ≤ A4_WIDTH / 2
    rw [hox]
    have heq : cfg.center_x + (d.x - srcCenterX cmds) * (onlabScale cfg cmds).1 + 0 -
        cfg.center_x = (d.x - srcCenterX cmds) * (onlabScale cfg cmds).1 := by ring
    rw [heq, abs_mul, abs_of_nonneg hs0]
    calc |d.x - srcCenterX cmds| * (onlabScale cfg cmds).1
        ≤ (srcWidth cmds / 2) * (onlabScale cfg cmds).1 :=
          mul_le_mul_of_nonneg_right hdx hs0
      _ ≤ (srcWidth cmds / 2) * (A4_WIDTH / srcWidth cmds * cfg.scale_factor) := by
          apply mul_le_mul_of_nonneg_left _ (by positivity)
          rw [hs]
          exact mul_le_mul_of_nonneg_right (min_le_left _ _) hsf0
      _ = A4_WIDTH / 2 * cfg.scale_factor := by
          field_simp
          ring
      _ ≤ A4_WIDTH / 2 * 1 := mul_le_mul_of_nonneg_left hsf1 (by positivity)
      _ = A4_WIDTH / 2 := mul_one _
  · show |cfg.center_y + (d.y - srcCenterY cmds) * (onlabScale cfg cmds).2 + cfg.offset_y -
        cfg.center_y| ≤ A4_HEIGHT / 2
    rw [hoy]
    have heq : cfg.center_y + (d.y - srcCenterY cmds) * (onlabScale cfg cmds).2 + 0 -
        cfg.center_y = (d.y - srcCenterY cmds) * (onlabScale cfg cmds).2 := by ring
    have hs20 : 0 ≤ (onlabScale cfg cmds).2 := hs2 ▸ mul_nonneg hmin0 hsf0
    rw [heq, abs_mul, abs_of_nonneg hs20]
    calc |d.y - srcCenterY cmds| * (onlabScale cfg cmds).2
        ≤ (srcHeight cmds / 2) * (onlabScale cfg cmds).2 :=
          mul_le_mul_of_nonneg_right hdy hs20
      _ ≤ (srcHeight cmds / 2) * (A4_HEIGHT / srcHeight cmds * cfg.scale_factor) := by
          apply mul_le_mul_of_nonneg_left _ (by positivity)
          rw [hs2]
          exact mul_le_mul_of_nonneg_right (min_le_right _ _) hsf0
      _ = A4_HEIGHT / 2 * cfg.scale_factor := by
          field_simp
          ring
      _ ≤ A4_HEIGHT / 2 * 1 := mul_le_mul_of_nonneg_left hsf1 (by positivity)
      _ = A4_HEIGHT / 2 := mul_one _

/-- The mapped output of `c5Src` under the default configuration. -/
def c6Out : List Cmd :=
  [⟨CTag.move, -2079/80, -2079/40⟩, ⟨CTag.line, 2079/80, -2079/40⟩,
   ⟨CTag.line, -2079/80, 2079/40⟩]

/-- The concrete mapping used by the C6 witness. -/
lemma c6_map_eval :
    scale_to_robot_coordinates defaultOnlabConfig c5Src = some c6Out := by
  norm_num [scale_to_robot_coordinates, c5Src, c6Out, onlabScale, srcWidth, srcHeight,
    srcCenterX, srcCenterY, minX, maxX, minY, maxY, listMin, listMax, xsOf, ysOf,
    mkMove, mkLine, defaultOnlabConfig, A4_WIDTH, A4_HEIGHT]

/-- Witness for C6 at a concrete drawing of width 1 and height 2. -/
theorem c6_fits_workspace_witness :
    |(⟨CTag.move, -2079/80, -2079/40⟩ : Cmd).x - defaultOnlabConfig.center_x| ≤
        A4_WIDTH / 2 ∧
    |(⟨CTag.move, -2079/80, -2079/40⟩ : Cmd).y - defaultOnlabConfig.center_y| ≤
        A4_HEIGHT / 2 ∧
    (onlabScale defaultOnlabConfig c5Src).1 ≤
      min (A4_WIDTH / srcWidth c5Src) (A4_HEIGHT / srcHeight c5Src) *
        defaultOnlabConfig.scale_factor :=
  c6_fits_workspace defaultOnlabConfig c5Src c6Out (⟨CTag.move, -2079/80, -2079/40⟩)
    rfl
    (by norm_num [srcWidth, minX, maxX, listMin, listMax, xsOf, c5Src, mkMove, mkLine])
    (by norm_num [srcHeight, minY, maxY, listMin, listMax, ysOf, c5Src, mkMove, mkLine])
    rfl rfl
    (by norm_num [defaultOnlabConfig])
    (by norm_num [defaultOnlabConfig])
    c6_map_eval
    (by simp [c6Out])

/-
Subpath closer, from `Onlab/svg_code.py`, `detect_closed_paths`
(lines 889-931).  The pass walks the command list keeping the start point of
the current subpath (`path_start`); at every `move` boundary and at the end
of the list it appends one corrective `line` to the exact subpath start when
the last emitted point is strictly within `PATH_TOLERANCE` of it but not
exactly equal.  The tolerance is a parameter here (the module constant is
0.5, and the comparison `distance < tol` is embedded as `distSq < tol^2`).
-/

/-- The close check performed against `result[-1]` (lines 907-914 and
921-929): appends `('line', path_start)` when the last emitted point is
within the tolerance of `path_start` but differs from it.  The `none`
branch (empty result) is unreachable whenever `path_start` is set, since the
`move` that set it was appended first; Python indexes `result[-1]`
unguarded there. -/
def closeAppend (tol : ℚ) (res : List Cmd) (p : Point) : List Cmd :=
  match res.getLast? with
  | some lastc =>
    if distSq (lastc.x, lastc.y) p < tol ^ 2 ∧ (lastc.x, lastc.y) ≠ p then
      res ++ [mkLine p.1 p.2]
    else res
  | none => res

/-- The main loop of `detect_closed_paths`: state is the accumulated result
and the optional `path_start`. -/
def dcpLoop (tol : ℚ) : List Cmd → List Cmd → Option Point → List Cmd
  | [], res, ps =>
    match ps with
    | some p => closeAppend tol res p
    | none => res
  | c :: rest, res, ps =>
    match c.tag with
    | CTag.move =>
      let res2 :=
        match ps with
        | some p => closeAppend tol res p
        | none => res
      dcpLoop tol rest (res2 ++ [c]) (some (c.x, c.y))
    | CTag.line => dcpLoop tol rest (res ++ [c]) ps

/-- `detect_closed_paths` (lines 889-931). -/
def detect_closed_paths (tol : ℚ) (cmds : List Cmd) : List Cmd :=
  match cmds with
  | [] => []
  | _ => dcpLoop tol cmds [] none

/-- A subpath: a `move` to `(sx, sy)` followed by `line` targets. -/
structure Subpath where
  sx : ℚ
  sy : ℚ
  tail : List Point
deriving DecidableEq

/-- The command sequence of a subpath. -/
def Subpath.toCmds (s : Subpath) : List Cmd :=
  mkMove s.sx s.sy :: s.tail.map (fun p => mkLine p.1 p.2)

/-- The final point of a subpath (its start when it has no line segment). -/
def Subpath.lastPt (s : Subpath) : Point := s.tail.getLast?.getD (s.sx, s.sy)

/-- The per-subpath closing transformation: append exactly one corrective
`line` to the exact start coordinates when the final point is strictly
within the tolerance of the start without equalling it. -/
def closeOne (tol : ℚ) (s : Subpath) : List Cmd :=
  s.toCmds ++
    (if distSq s.lastPt (s.sx, s.sy) < tol ^ 2 ∧ s.lastPt ≠ (s.sx, s.sy) then
      [mkLine s.sx s.sy]
    else [])

/-- The last command of a subpath's command sequence carries its final
point. -/
lemma toCmds_getLast (s : Subpath) :
    ∃ lastc, (Subpath.toCmds s).getLast? = some lastc ∧ (lastc.x, lastc.y) = s.lastPt := by
  rcases htail : s.tail with _ | ⟨p, ps⟩
  · exact ⟨mkMove s.sx s.sy, by simp [Subpath.toCmds, htail],
      by simp [Subpath.lastPt, htail, mkMove]⟩
  · have hq : (p :: ps).getLast? = some ((p :: ps).getLast (by simp)) :=
      List.getLast?_eq_getLast _ _
    have h1 : (Subpath.toCmds s).getLast? =
        ((p :: ps).map (fun q => mkLine q.1 q.2)).getLast? := by
      simp only [Subpath.toCmds, htail, List.map_cons, List.getLast?_cons_cons]
    refine ⟨mkLine ((p :: ps).getLast (by simp)).1 ((p :: ps).getLast (by simp)).2, ?_, ?_⟩
    · rw [h1, List.getLast?_map, hq]
      rfl
    · simp [Subpath.lastPt, htail, hq, mkLine]

/-- The close check after a whole subpath has been appended equals the
per-subpath closing transformation. -/
lemma closeAppend_toCmds (tol : ℚ) (res : List Cmd) (s : Subpath) :
    closeAppend tol (res ++ s.toCmds) (s.sx, s.sy) = res ++ closeOne tol s := by
  obtain ⟨lastc, hlast, hpt⟩ := toCmds_getLast s
  have h2 : (res ++ s.toCmds).getLast? = some lastc := by
    rw [List.getLast?_append_of_ne_nil _ (by simp [Subpath.toCmds]), hlast]
  rw [closeAppend, h2]
  show (if distSq (lastc.x, lastc.y) (s.sx, s.sy) < tol ^ 2 ∧
          (lastc.x, lastc.y) ≠ (s.sx, s.sy) then
      res ++ s.toCmds ++ [mkLine (s.sx, s.sy).1 (s.sx, s.sy).2]
    else res ++ s.toCmds) = res ++ closeOne tol s
  rw [hpt]
  by_cases hcond : distSq s.lastPt (s.sx, s.sy) < tol ^ 2 ∧ s.lastPt ≠ (s.sx, s.sy)
  · rw [if_pos hcond]
    simp [closeOne, hcond, List.append_assoc]
  · rw [if_neg hcond]
    simp [closeOne, hcond]

/-- Processing a run of `line` commands just appends them. -/
lemma dcp_lines (tol : ℚ) (ls : List Point) :
    ∀ (restCmds res : List Cmd) (ps : Option Point),
      dcpLoop tol (ls.map (fun p => mkLine p.1 p.2) ++ restCmds) res ps =
        dcpLoop tol restCmds (res ++ ls.map (fun p => mkLine p.1 p.2)) ps := by
  induction ls with
  | nil => intro restCmds res ps; simp
  | cons p ps' ih =>
    intro restCmds res ps
    simp only [List.map_cons, List.cons_append]
    rw [show dcpLoop tol (mkLine p.1 p.2 :: (ps'.map (fun q => mkLine q.1 q.2) ++ restCmds))
          res ps =
        dcpLoop tol (ps'.map (fun q => mkLine q.1 q.2) ++ restCmds)
          (res ++ [mkLine p.1 p.2]) ps from rfl,
      ih]
    simp [List.append_assoc]

/-- Invariant of the main loop over whole subpaths: with one subpath already
appended and its start as `path_start`, processing the remaining subpaths
closes each one in place. -/
lemma dcp_run (tol : ℚ) :
    ∀ (subs : List Subpath) (res : List Cmd) (s : Subpath),
      dcpLoop tol (List.flatten (subs.map Subpath.toCmds)) (res ++ s.toCmds)
          (some (s.sx, s.sy)) =
        res ++ closeOne tol s ++ List.flatten (subs.map (closeOne tol)) := by
  intro subs
  induction subs with
  | nil =>
    intro res s
    show closeAppend tol (res ++ s.toCmds) (s.sx, s.sy) = _
    rw [closeAppend_toCmds]
    simp
  | cons s2 subs ih =>
    intro res s
    simp only [List.map_cons, List.flatten_cons]
    rw [show Subpath.toCmds s2 = mkMove s2.sx s2.sy ::
          s2.tail.map (fun p => mkLine p.1 p.2) from rfl, List.cons_append]
    rw [show dcpLoop tol (mkMove s2.sx s2.sy ::
          (s2.tail.map (fun p => mkLine p.1 p.2) ++ List.flatten (subs.map Subpath.toCmds)))
          (res ++ s.toCmds) (some (s.sx, s.sy)) =
        dcpLoop tol (s2.tail.map (fun p => mkLine p.1 p.2) ++
            List.flatten (subs.map Subpath.toCmds))
          (closeAppend tol (res ++ s.toCmds) (s.sx, s.sy) ++ [mkMove s2.sx s2.sy])
          (some (s2.sx, s2.sy)) from rfl]
    rw [closeAppend_toCmds, dcp_lines]
    have hre : res ++ closeOne tol s ++ [mkMove s2.sx s2.sy] ++
        s2.tail.map (fun p => mkLine p.1 p.2) =
        (res ++ closeOne tol s) ++ s2.toCmds := by
      simp [Subpath.toCmds, List.append_assoc]
    rw [hre, ih]
    simp [List.append_assoc]

/-- The path `move (0,0), line (1,0), line (0.3, 0)`: one subpath ending 0.3
units away from its start. -/
def c7Scenario : List Cmd := [mkMove 0 0, mkLine 1 0, mkLine (3/10) 0]

/-- C7.  For every list of subpaths, `detect_closed_paths` closes each
subpath independently: exactly one corrective `line` to the exact start
coordinates is appended when the subpath's final point is within the
tolerance of its start but differs from it, and nothing is appended when the
final point is farther than the tolerance or exactly equal; in particular a
subpath ending 0.3 units from its start is closed with tolerance 0.5 and
left alone with tolerance 0.1. -/
theorem c7_subpath_closing (tol : ℚ) (subs : List Subpath) :
    detect_closed_paths tol (List.flatten (subs.map Subpath.toCmds)) =
      List.flatten (subs.map (closeOne tol)) ∧
    (∀ s : Subpath,
      distSq s.lastPt (s.sx, s.sy) < tol ^ 2 ∧ s.lastPt ≠ (s.sx, s.sy) →
        closeOne tol s = s.toCmds ++ [mkLine s.sx s.sy]) ∧
    (∀ s : Subpath,
      tol ^ 2 < distSq s.lastPt (s.sx, s.sy) ∨ s.lastPt = (s.sx, s.sy) →
        closeOne tol s = s.toCmds) ∧
    detect_closed_paths (1/2) c7Scenario = c7Scenario ++ [mkLine 0 0] ∧
    detect_closed_paths (1/10) c7Scenario = c7Scenario := by
  refine ⟨?_, ?_, ?_, ?_, ?_⟩
  · cases subs with
    | nil => rfl
    | cons s subs' =>
      simp only [List.map_cons, List.flatten_cons]
      rw [show Subpath.toCmds s = mkMove s.sx s.sy ::
            s.tail.map (fun p => mkLine p.1 p.2) from rfl, List.cons_append]
      show dcpLoop tol _ [] none = _
      rw [show dcpLoop tol (mkMove s.sx s.sy ::
            (s.tail.map (fun p => mkLine p.1 p.2) ++
              List.flatten (subs'.map Subpath.toCmds)))
            [] none =
          dcpLoop tol (s.tail.map (fun p => mkLine p.1 p.2) ++
              List.flatten (subs'.map Subpath.toCmds))
            ([] ++ [mkMove s.sx s.sy]) (some (s.sx, s.sy)) from rfl]
      rw [dcp_lines]
      have hre : ([] : List Cmd) ++ [mkMove s.sx s.sy] ++
          s.tail.map (fun p => mkLine p.1 p.2) = ([] : List Cmd) ++ s.toCmds := by
        simp [Subpath.toCmds]
      rw [hre, dcp_run]
      simp
  · intro s hcond
    rw [closeOne, if_pos hcond]
  · intro s hcond
    rw [closeOne, if_neg]
    · rw [List.append_nil]
    · rcases hcond with hfar | heq
      · rintro ⟨hlt, _⟩
        exact absurd hfar (not_lt.mpr hlt.le)
      · rintro ⟨_, hne⟩
        exact hne heq
  · norm_num [detect_closed_paths, c7Scenario, dcpLoop, closeAppend, distSq,
      mkMove, mkLine]
  · norm_num [detect_closed_paths, c7Scenario, dcpLoop, closeAppend, distSq,
      mkMove, mkLine]

/-- Witness for C7 hypotheses at a concrete subpath (final point 0.3 from
the start, tolerance 0.5 on the appending side and 0.1 on the skipping
side). -/
theorem c7_subpath_closing_witness :
    closeOne (1/2) ⟨0, 0, [(1, 0), (3/10, 0)]⟩ =
      Subpath.toCmds ⟨0, 0, [(1, 0), (3/10, 0)]⟩ ++ [mkLine 0 0] ∧
    closeOne (1/10) ⟨0, 0, [(1, 0), (3/10, 0)]⟩ =
      Subpath.toCmds ⟨0, 0, [(1, 0), (3/10, 0)]⟩ := by
  constructor
  · exact (c7_subpath_closing (1/2) []).2.1 ⟨0, 0, [(1, 0), (3/10, 0)]⟩
      (by norm_num [Subpath.lastPt, distSq])
  · exact (c7_subpath_closing (1/10) []).2.2.1 ⟨0, 0, [(1, 0), (3/10, 0)]⟩
      (Or.inl (by norm_num [Subpath.lastPt, distSq]))

/-
Arc flattener, from `Onlab/svg_code.py`, `approximate_arc` (lines 756-838).
The degenerate short-circuits (lines 761-772) run before any trigonometric
computation: identical start/end points return immediately with no command
appended; a zero radius (after taking absolute values) appends exactly one
`line` to the end point.  The non-degenerate branch samples `steps` points on
the computed ellipse with `cos`/`sin`/`atan2`/`sqrt`; those transcendental
point values are abstracted as the `sample` parameter, which the degenerate
branches never consult.
-/

/-- `approximate_arc`: the list of commands appended, with the
center-parameterization sampling abstracted as `sample` (the i-th emitted
point of the loop at lines 830-838). -/
def approximate_arc (sample : ℕ → Point) (x0 y0 rx ry : ℚ) (steps : ℕ)
    (x y : ℚ) : List Cmd :=
  if x0 = x ∧ y0 = y then []
  else if |rx| = 0 ∨ |ry| = 0 then [mkLine x y]
  else (List.range steps).map (fun i => mkLine (sample (i + 1)).1 (sample (i + 1)).2)

/-- C8 (counterexample).  An arc whose start point equals its end point
emits no command at all — not the single `Line` to the end point that the
claim requires (here start = end = (1, 2), radii 5, 20 sampling steps). -/
theorem c8_counterexample :
    approximate_arc (fun _ => (0, 0)) 1 2 5 5 20 1 2 = [] ∧
    approximate_arc (fun _ => (0, 0)) 1 2 5 5 20 1 2 ≠ [mkLine 1 2] := by
  constructor
  · rw [approximate_arc, if_pos ⟨rfl, rfl⟩]
  · rw [approximate_arc, if_pos ⟨rfl, rfl⟩]
    simp

/-- C8 (amended).  The degenerate cases of the arc flattener resolve locally
and never sample the arc: identical start and end points produce no command
at all, while a zero radius with distinct endpoints produces exactly one
`Line` to the arc's end point; neither branch consults the sampling
function, so no arc sampling is performed and no error is raised. -/
theorem c8_arc_degenerate (sample : ℕ → Point) (x0 y0 rx ry x y : ℚ) (steps : ℕ) :
    ((x0 = x ∧ y0 = y) → approximate_arc sample x0 y0 rx ry steps x y = []) ∧
    (¬(x0 = x ∧ y0 = y) → (rx = 0 ∨ ry = 0) →
      approximate_arc sample x0 y0 rx ry steps x y = [mkLine x y]) := by
  constructor
  · intro hdeg
    rw [approximate_arc, if_pos hdeg]
  · intro hne hr
    rw [approximate_arc, if_neg hne, if_pos]
    rcases hr with hr | hr
    · exact Or.inl (by rw [hr]; simp)
    · exact Or.inr (by rw [hr]; simp)

/-- Witness for C8 at a concrete degenerate arc (`rx = 0`, distinct
endpoints). -/
theorem c8_arc_degenerate_witness :
    approximate_arc (fun _ => (0, 0)) 0 0 0 5 20 3 4 = [mkLine 3 4] :=
  (c8_arc_degenerate (fun _ => (0, 0)) 0 0 0 5 3 4 20).2
    (by norm_num) (Or.inl rfl)

/-
Path optimizer, from `Onlab/svg_code.py`, `optimize_paths` (lines 840-883).
The loop keeps an `optimized` prefix and a pending `current_path`; a `move`
first flushes the pending path, then becomes a `line` when its target is
within `PATH_TOLERANCE` of the last emitted point (`optimized[-1]`);
`MAX_SEGMENTS_PER_PATH` only forces early flushes, which never change the
concatenated output.  `distance <= tol` is embedded as `distSq ≤ tol^2`.
-/

/-- Last emitted point of a command list, if any. -/
def lastPtO (l : List Cmd) : Option Point := l.getLast?.map ptOf

/-- The proximity check of the `move` branch (lines 862-863) against the
last command of the flushed output. -/
def nearLast (tol : ℚ) (l : List Cmd) (p : Point) : Bool :=
  match l.getLast? with
  | some lastc => decide (distSq (lastc.x, lastc.y) p ≤ tol ^ 2)
  | none => false

/-- The for-loop of `optimize_paths`: state is the enumeration index `i`,
the `optimized` list and the pending `current_path`. -/
def optLoop (tol : ℚ) (maxSeg : ℕ) : List Cmd → ℕ → List Cmd → List Cmd → List Cmd
  | [], _, opt, cur => opt ++ cur
  | c :: rest, i, opt, cur =>
    match c.tag with
    | CTag.move =>
      if 0 < i ∧ nearLast tol (opt ++ cur) (c.x, c.y) = true then
        optLoop tol maxSeg rest (i + 1) (opt ++ cur ++ [mkLine c.x c.y]) []
      else
        optLoop tol maxSeg rest (i + 1) (opt ++ cur) [c]
    | CTag.line =>
      if maxSeg ≤ (cur ++ [c]).length then
        optLoop tol maxSeg rest (i + 1) (opt ++ cur ++ [c]) []
      else
        optLoop tol maxSeg rest (i + 1) opt (cur ++ [c])

/-- `optimize_paths` (lines 840-883), with the module flags as parameters:
returns the input unchanged when optimization is disabled or the list is
empty, otherwise runs the loop from an empty state. -/
def optimize_paths (enabled : Bool) (tol : ℚ) (maxSeg : ℕ) (cmds : List Cmd) :
    List Cmd :=
  if enabled = false ∨ cmds = [] then cmds
  else optLoop tol maxSeg cmds 0 [] []

/-- The pointwise specification of the optimizer: a `move` whose target is
within the tolerance of the previous point becomes a `line`; everything else
is kept. -/
def retagStep (tol : ℚ) (prev : Option Point) (c : Cmd) : Cmd :=
  match c.tag, prev with
  | CTag.move, some q => if distSq q (c.x, c.y) ≤ tol ^ 2 then mkLine c.x c.y else c
  | _, _ => c

/-- The optimizer as a pointwise pass threading the previous point. -/
def retag (tol : ℚ) : Option Point → List Cmd → List Cmd
  | _, [] => []
  | prev, c :: rest => retagStep tol prev c :: retag tol (some (c.x, c.y)) rest

/-- Retagging never moves a point. -/
lemma retagStep_pt (tol : ℚ) (prev : Option Point) (c : Cmd) :
    (retagStep tol prev c).x = c.x ∧ (retagStep tol prev c).y = c.y := by
  rcases c with ⟨tag, x, y⟩
  cases tag with
  | move =>
    rcases prev with _ | q
    · exact ⟨rfl, rfl⟩
    · show ((if distSq q (x, y) ≤ tol ^ 2 then mkLine x y else ⟨CTag.move, x, y⟩).x = x) ∧
        ((if distSq q (x, y) ≤ tol ^ 2 then mkLine x y else ⟨CTag.move, x, y⟩).y = y)
      by_cases hd : distSq q (x, y) ≤ tol ^ 2
      · rw [if_pos hd]; exact ⟨rfl, rfl⟩
      · rw [if_neg hd]; exact ⟨rfl, rfl⟩
  | line =>
    rcases prev with _ | q
    · exact ⟨rfl, rfl⟩
    · exact ⟨rfl, rfl⟩

/-- The retagging pass preserves the last emitted point. -/
lemma lastPtO_retag (tol : ℚ) : ∀ (l : List Cmd) (prev : Option Point),
    lastPtO (retag tol prev l) = lastPtO l := by
  intro l
  induction l with
  | nil => intro prev; rfl
  | cons c rest ih =>
    intro prev
    cases rest with
    | nil =>
      show lastPtO [retagStep tol prev c] = lastPtO [c]
      obtain ⟨hx, hy⟩ := retagStep_pt tol prev c
      simp [lastPtO, ptOf, hx, hy]
    | cons d rest2 =>
      show lastPtO (retagStep tol prev c ::
        (retagStep tol (some (c.x, c.y)) d :: retag tol (some (d.x, d.y)) rest2)) = _
      rw [lastPtO, List.getLast?_cons_cons, ← lastPtO]
      rw [show retagStep tol (some (c.x, c.y)) d :: retag tol (some (d.x, d.y)) rest2 =
          retag tol (some (c.x, c.y)) (d :: rest2) from rfl]
      rw [ih (some (c.x, c.y)), lastPtO, lastPtO, List.getLast?_cons_cons]

/-- `nearLast` only depends on the last emitted point. -/
lemma nearLast_some (tol : ℚ) (l : List Cmd) (q : Point) (hq : lastPtO l = some q)
    (p : Point) : nearLast tol l p = decide (distSq q p ≤ tol ^ 2) := by
  rcases h : l.getLast? with _ | d
  · rw [lastPtO, h] at hq; simp at hq
  · rw [lastPtO, h] at hq
    simp only [Option.map_some'] at hq
    rw [nearLast, h]
    show decide (distSq (d.x, d.y) p ≤ tol ^ 2) = decide (distSq q p ≤ tol ^ 2)
    have hdq : (d.x, d.y) = q := by rw [← Option.some.inj hq]; rfl
    rw [hdq]

/-- A non-empty command list has a last emitted point. -/
lemma lastPtO_isSome (l : List Cmd) (h : l ≠ []) : ∃ q, lastPtO l = some q := by
  refine ⟨ptOf (l.getLast h), ?_⟩
  rw [lastPtO, List.getLast?_eq_getLast l h]
  rfl

/-- Appending one command to a retagging pass. -/
lemma retag_append_single (tol : ℚ) : ∀ (l : List Cmd) (prev : Option Point) (c : Cmd),
    retag tol prev (l ++ [c]) =
      retag tol prev l ++ [retagStep tol ((lastPtO l).or prev) c] := by
  intro l
  induction l with
  | nil => intro prev c; rfl
  | cons d rest ih =>
    intro prev c
    show retagStep tol prev d :: retag tol (some (d.x, d.y)) (rest ++ [c]) = _
    rw [ih]
    have hor : (lastPtO (d :: rest)).or prev = (lastPtO rest).or (some (d.x, d.y)) := by
      cases rest with
      | nil =>
        show (lastPtO [d]).or prev = _
        rw [lastPtO, List.getLast?_singleton]
        rfl
      | cons e rest2 =>
        rw [lastPtO, lastPtO, List.getLast?_cons_cons]
        rcases hg : (e :: rest2).getLast? with _ | g
        · exact absurd (List.getLast?_eq_none_iff.mp hg) (by simp)
        · rfl
    rw [hor]
    rfl

/-- The optimizer loop computes the pointwise retagging pass: invariant form
with `done` the already-consumed prefix, `done.length` the enumeration
index, and `opt ++ cur` the output so far. -/
lemma optLoop_retag (tol : ℚ) (maxSeg : ℕ) :
    ∀ (rest done opt cur : List Cmd),
      opt ++ cur = retag tol none done →
      optLoop tol maxSeg rest done.length opt cur = retag tol none (done ++ rest) := by
  intro rest
  induction rest with
  | nil =>
    intro done opt cur h
    show opt ++ cur = _
    rw [h, List.append_nil]
  | cons c rest' ih =>
    intro done opt cur h
    rcases c with ⟨tag, x, y⟩
    cases tag with
    | move =>
      rw [show optLoop tol maxSeg (⟨CTag.move, x, y⟩ :: rest') done.length opt cur =
          (if 0 < done.length ∧ nearLast tol (opt ++ cur) (x, y) = true then
            optLoop tol maxSeg rest' (done.length + 1) (opt ++ cur ++ [mkLine x y]) []
          else
            optLoop tol maxSeg rest' (done.length + 1) (opt ++ cur) [⟨CTag.move, x, y⟩])
          from rfl]
      rw [show done ++ ⟨CTag.move, x, y⟩ :: rest' =
          (done ++ [⟨CTag.move, x, y⟩]) ++ rest' by simp]
      by_cases hcond : 0 < done.length ∧ nearLast tol (opt ++ cur) (x, y) = true
      · rw [if_pos hcond]
        have hne : done ≠ [] := by
          intro hd
          rw [hd] at hcond
          simp at hcond
        obtain ⟨q, hq⟩ := lastPtO_isSome done hne
        have hnear : nearLast tol (opt ++ cur) (x, y) =
            decide (distSq q (x, y) ≤ tol ^ 2) := by
          rw [h]
          exact nearLast_some tol _ q (by rw [lastPtO_retag]; exact hq) _
        have hdist : distSq q (x, y) ≤ tol ^ 2 := by
          have := hcond.2
          rw [hnear] at this
          exact of_decide_eq_true this
        have hstep : retagStep tol ((lastPtO done).or none) ⟨CTag.move, x, y⟩ =
            mkLine x y := by
          rw [hq]
          show (if distSq q (x, y) ≤ tol ^ 2 then mkLine x y else _) = mkLine x y
          rw [if_pos hdist]
        have h2 : (opt ++ cur ++ [mkLine x y]) ++ [] =
            retag tol none (done ++ [⟨CTag.move, x, y⟩]) := by
          rw [List.append_nil, retag_append_single, hstep, h]
        have hrec := ih (done ++ [⟨CTag.move, x, y⟩]) (opt ++ cur ++ [mkLine x y]) [] h2
        simpa using hrec
      · rw [if_neg hcond]
        have hstep : retagStep tol ((lastPtO done).or none) ⟨CTag.move, x, y⟩ =
            ⟨CTag.move, x, y⟩ := by
          rcases hdq : lastPtO done with _ | q
          · rfl
          · have hne : done ≠ [] := by
              intro hd
              rw [hd] at hdq
              simp [lastPtO] at hdq
            have hlenpos : 0 < done.length := List.length_pos.mpr hne
            have hnear : nearLast tol (opt ++ cur) (x, y) =
                decide (distSq q (x, y) ≤ tol ^ 2) := by
              rw [h]
              exact nearLast_some tol _ q (by rw [lastPtO_retag]; exact hdq) _
            have hfalse : ¬ distSq q (x, y) ≤ tol ^ 2 := by
              intro hcl
              exact hcond ⟨hlenpos, by rw [hnear, decide_eq_true_eq]; exact hcl⟩
            show (if distSq q (x, y) ≤ tol ^ 2 then mkLine x y else _) = _
            rw [if_neg hfalse]
        have h2 : (opt ++ cur) ++ [⟨CTag.move, x, y⟩] =
            retag tol none (done ++ [⟨CTag.move, x, y⟩]) := by
          rw [retag_append_single, hstep, h]
        have hrec := ih (done ++ [⟨CTag.move, x, y⟩]) (opt ++ cur) [⟨CTag.move, x, y⟩] h2
        simpa using hrec
    | line =>
      rw [show optLoop tol maxSeg ((⟨CTag.line, x, y⟩ : Cmd) :: rest') done.length opt cur =
          (if maxSeg ≤ (cur ++ ([⟨CTag.line, x, y⟩] : List Cmd)).length then
            optLoop tol maxSeg rest' (done.length + 1)
              (opt ++ cur ++ ([⟨CTag.line, x, y⟩] : List Cmd)) []
          else
            optLoop tol maxSeg rest' (done.length + 1) opt
              (cur ++ ([⟨CTag.line, x, y⟩] : List Cmd)))
          from rfl]
      rw [show done ++ (⟨CTag.line, x, y⟩ : Cmd) :: rest' =
          (done ++ [⟨CTag.line, x, y⟩]) ++ rest' by simp]
      have hstep : retagStep tol ((lastPtO done).or none) (⟨CTag.line, x, y⟩ : Cmd) =
          (⟨CTag.line, x, y⟩ : Cmd) := by
        rcases (lastPtO done).or none with _ | q <;> rfl
      have h2 : opt ++ cur ++ ([⟨CTag.line, x, y⟩] : List Cmd) =
          retag tol none (done ++ [⟨CTag.line, x, y⟩]) := by
        rw [retag_append_single, hstep, ← h, List.append_assoc]
      by_cases hflush : maxSeg ≤ (cur ++ ([⟨CTag.line, x, y⟩] : List Cmd)).length
      · rw [if_pos hflush]
        have hrec := ih (done ++ [⟨CTag.line, x, y⟩]) (opt ++ cur ++ [⟨CTag.line, x, y⟩]) []
          (by rw [List.append_nil]; exact h2)
        simpa using hrec
      · rw [if_neg hflush]
        have hrec := ih (done ++ [⟨CTag.line, x, y⟩]) opt (cur ++ [⟨CTag.line, x, y⟩])
          (by rw [← List.append_assoc]; exact h2)
        simpa using hrec

/-- One retagging step is idempotent. -/
lemma retagStep_idem (tol : ℚ) (prev : Option Point) (c : Cmd) :
    retagStep tol prev (retagStep tol prev c) = retagStep tol prev c := by
  rcases c with ⟨tag, x, y⟩
  cases tag with
  | move =>
    rcases prev with _ | q
    · rfl
    · have hc : retagStep tol (some q) (⟨CTag.move, x, y⟩ : Cmd) =
          (if distSq q (x, y) ≤ tol ^ 2 then mkLine x y else ⟨CTag.move, x, y⟩) := rfl
      by_cases hd : distSq q (x, y) ≤ tol ^ 2
      · rw [hc, if_pos hd]
        rfl
      · rw [hc, if_neg hd, hc, if_neg hd]
  | line =>
    rcases prev with _ | q
    · rfl
    · rfl

/-- The retagging pass is idempotent. -/
lemma retag_idem (tol : ℚ) : ∀ (l : List Cmd) (prev : Option Point),
    retag tol prev (retag tol prev l) = retag tol prev l := by
  intro l
  induction l with
  | nil => intro prev; rfl
  | cons c rest ih =>
    intro prev
    show retagStep tol prev (retagStep tol prev c) ::
        retag tol (some ((retagStep tol prev c).x, (retagStep tol prev c).y))
          (retag tol (some (c.x, c.y)) rest) = _
    obtain ⟨hx, hy⟩ := retagStep_pt tol prev c
    rw [retagStep_idem, hx, hy, ih (some (c.x, c.y))]
    rfl

/-- C9.  The path optimizer is idempotent: running it on its own output
changes nothing, both with optimization disabled (identity) and enabled;
moreover when enabled it equals the pointwise pass that rewrites exactly
those `move` commands whose target lies within the tolerance of the
immediately preceding emitted point into `line` commands. -/
theorem c9_optimizer_idempotent (enabled : Bool) (tol : ℚ) (maxSeg : ℕ)
    (cmds : List Cmd) :
    optimize_paths enabled tol maxSeg (optimize_paths enabled tol maxSeg cmds) =
      optimize_paths enabled tol maxSeg cmds ∧
    optimize_paths true tol maxSeg cmds = retag tol none cmds := by
  have hopt : ∀ l : List Cmd, optimize_paths true tol maxSeg l = retag tol none l := by
    intro l
    by_cases hl : l = []
    · rw [hl]; rfl
    · rw [optimize_paths, if_neg (by simp [hl])]
      have := optLoop_retag tol maxSeg l [] [] [] rfl
      simpa using this
  refine ⟨?_, hopt cmds⟩
  cases enabled with
  | false => simp [optimize_paths]
  | true => rw [hopt, hopt, retag_idem]

/-
Trajectory persistence.  `save_trajectory` of `Onlab/svg_code.py`
(lines 1122-1145) serializes `[[round(pose, 2dp)]]` per step, discarding the
`'move'`/`'line'` tag; `save_trajectory` of `svg_code.py` (lines 669-690)
serializes `(tag, pose)` pairs without rounding.  The JSON documents are
modelled by the `Jval` tree; Python's `float(f"{p:.2f}")` becomes rounding
to two decimals over ℚ (the exact tie-breaking of binary-float formatting is
immaterial to the claims).
-/

/-- A JSON value: number, string, or array. -/
inductive Jval
| num (q : ℚ)
| str (s : String)
| arr (l : List Jval)

/-- The Python tag strings. -/
def tagName (t : CTag) : String :=
  match t with
  | CTag.move => "move"
  | CTag.line => "line"

/-- Rounding to two decimal places (`float(f"{p:.2f}")`). -/
def round2 (q : ℚ) : ℚ := ((round (100 * q) : ℤ) : ℚ) / 100

/-- A pose as the Python 6-element list `[x, y, z, rx, ry, rz]`. -/
def poseList (p : Pose) : List ℚ := [p.x, p.y, p.z, p.rx, p.ry, p.rz]

/-- The Onlab `save_trajectory` (lines 1132-1138): one record per step, each
record a singleton list holding only the rounded pose; the step tag is not
written. -/
def save_trajectory_onlab (traj : List Step) : Jval :=
  Jval.arr (traj.map (fun s =>
    Jval.arr [Jval.arr ((poseList s.pose).map (fun q => Jval.num (round2 q)))]))

/-- The root `save_trajectory` (lines 679-683): one `(tag, pose)` pair per
step, unrounded. -/
def save_trajectory_root (traj : List Step) : Jval :=
  Jval.arr (traj.map (fun s =>
    Jval.arr [Jval.str (tagName s.tag), Jval.arr ((poseList s.pose).map Jval.num)]))

/-- C10.  The Onlab save writes exactly one record per step, each a
singleton holding only the 6-element pose rounded to two decimals; it
discards the tag entirely (retagging every step arbitrarily does not change
the file, and two trajectories differing only in a tag serialize
identically), so the pen state is not recoverable; the root save writes
`(tag, pose)` pairs, distinguishes those trajectories, and for the same
non-empty trajectory the two savers produce different on-disk shapes. -/
theorem c10_save_formats (traj : List Step) (h : traj ≠ []) :
    (∀ f : CTag → CTag,
      save_trajectory_onlab (traj.map (fun s => ⟨f s.tag, s.pose⟩)) =
        save_trajectory_onlab traj) ∧
    (∃ t1 t2 : List Step, t1 ≠ t2 ∧
      save_trajectory_onlab t1 = save_trajectory_onlab t2 ∧
      save_trajectory_root t1 ≠ save_trajectory_root t2) ∧
    save_trajectory_onlab traj ≠ save_trajectory_root traj ∧
    (∃ l : List Jval, save_trajectory_onlab traj = Jval.arr l ∧
      l.length = traj.length ∧
      ∀ i, i < traj.length → ∃ s, traj[i]? = some s ∧
        l[i]? = some (Jval.arr [Jval.arr
          ((poseList s.pose).map (fun q => Jval.num (round2 q)))])) ∧
    (∃ l : List Jval, save_trajectory_root traj = Jval.arr l ∧
      l.length = traj.length ∧
      ∀ i, i < traj.length → ∃ s, traj[i]? = some s ∧
        l[i]? = some (Jval.arr [Jval.str (tagName s.tag),
          Jval.arr ((poseList s.pose).map Jval.num)])) ∧
    save_trajectory_onlab [⟨CTag.move, ⟨1.234, 5.678, 0, 0, 0, 0⟩⟩] =
      Jval.arr [Jval.arr [Jval.arr
        [Jval.num 1.23, Jval.num 5.68, Jval.num 0, Jval.num 0, Jval.num 0,
         Jval.num 0]]] := by
  refine ⟨?_, ?_, ?_, ?_, ?_, ?_⟩
  · intro f
    rw [save_trajectory_onlab, save_trajectory_onlab, List.map_map]
    rfl
  · refine ⟨[⟨CTag.move, ⟨0, 0, 0, 0, 0, 0⟩⟩], [⟨CTag.line, ⟨0, 0, 0, 0, 0, 0⟩⟩],
      by simp, rfl, ?_⟩
    simp [save_trajectory_root, tagName]
  · cases traj with
    | nil => exact absurd rfl h
    | cons s rest =>
      intro hEq
      rw [save_trajectory_onlab, save_trajectory_root] at hEq
      have h1 := Jval.arr.inj hEq
      rw [List.map_cons, List.map_cons] at h1
      have h2 := (List.cons.inj h1).1
      have h3 := Jval.arr.inj h2
      simp at h3
  · refine ⟨_, rfl, List.length_map _ _, ?_⟩
    intro i hi
    refine ⟨traj[i], List.getElem?_eq_getElem hi, ?_⟩
    rw [List.getElem?_map, List.getElem?_eq_getElem hi]
    rfl
  · refine ⟨_, rfl, List.length_map _ _, ?_⟩
    intro i hi
    refine ⟨traj[i], List.getElem?_eq_getElem hi, ?_⟩
    rw [List.getElem?_map, List.getElem?_eq_getElem hi]
    rfl
  · norm_num [save_trajectory_onlab, poseList, round2, round_eq]

/-- Witness for C10 at a concrete one-step trajectory. -/
theorem c10_save_formats_witness :
    save_trajectory_onlab [⟨CTag.move, ⟨1, 2, 3, 0, 0, 0⟩⟩] ≠
      save_trajectory_root [⟨CTag.move, ⟨1, 2, 3, 0, 0, 0⟩⟩] :=
  (c10_save_formats [⟨CTag.move, ⟨1, 2, 3, 0, 0, 0⟩⟩] (by simp)).2.2.1

end SvgRobot
